import Mathlib

/-!
# Verification of the availability-resolution engine (scheduler2.py / update_schedule_2.py)

Shallow embedding conventions:

* An *instant* is an integer number of seconds.  All aware datetimes in the
  source are compared and combined after conversion into one resolving time
  zone (`astimezone(tzinfo)` preserves the instant, so the conversion is the
  identity on instants); we therefore identify an instant with its wall-clock
  reading in that single resolving zone.  Day number `d` covers seconds
  `[86400*d, 86400*(d+1))`; day `0` is chosen to be a Monday, so Python's
  `date.weekday()` is `d % 7` (Monday = 0), matching the only use the source
  makes of weekdays.
* Python's `//` and `%` on these quantities always have a positive divisor,
  where floor division coincides with Euclidean division; Lean's `Int` `/`
  and `%` (`Int.ediv` / `Int.emod`) match them exactly.
* `timedelta` values are integers of seconds.  `slack / 2` in the source is
  exact to the microsecond; at the second granularity used here only the
  minute component of the centred start is ever observed afterwards
  (`.minute`, `.replace(minute=…, second=0, microsecond=0)`), and flooring
  the half cannot change that minute, so `slack / 2` is modelled by integer
  division.
* A candidate is `(score, start, end)`.  The source stores
  `score = slack.total_seconds() / 2` (a float); we store the slack in
  seconds itself.  `x ↦ x / 2` is strictly monotone, so ranking by the
  stored value descending is identical to ranking by the source's score.
* Python's `list.sort` is a stable sort; any stable sort with the same
  comparison computes the same list, so it is modelled by a stable insertion
  sort (`sortLe` below).  `reverse=True` keeps equal elements in original
  order, which `sortLe` with the flipped comparison reproduces.
* `parse_selected_time` is the one place where a zone *different* from the
  resolving zone enters: `replace(tzinfo=pytz.timezone("Asia/Singapore"))`
  attaches the pytz zone object's base local-mean-time offset +06:55, not
  the resolving zone's +08:00.  Its outputs are therefore modelled as
  aware (wall reading, UTC offset) pairs, compared as instants through
  `utc_instant`.
-/

/-- An instant: seconds in the resolving time zone. -/
abbrev Instant := ℤ

/-- A half-open time interval `(start, end)`, as the tuples in the source. -/
abbrev TimeIv := ℤ × ℤ

/-- Python `dt.date()`: the day number containing instant `t`. -/
def date_of (t : ℤ) : ℤ := t / 86400

/-- Python `dt.minute`: the wall-clock minute component of instant `t`. -/
def minute_of (t : ℤ) : ℤ := (t / 60) % 60

/-- Python `dt.hour`: the wall-clock hour component of instant `t`. -/
def hour_of (t : ℤ) : ℤ := (t / 3600) % 24

/-- Instant `t` with minute, second (and sub-second) components cleared:
the base instant to which `replace(minute=…, second=0, microsecond=0)`
adds the replacement minute. -/
def hour_floor (t : ℤ) : ℤ := t - t % 3600

/-- `datetime.combine(day, time(9, 0, tzinfo=tzinfo))`. -/
def work_start (day : ℤ) : ℤ := 86400 * day + 32400

/-- `datetime.combine(day, time(17, 0, tzinfo=tzinfo))`. -/
def work_end (day : ℤ) : ℤ := 86400 * day + 61200

/-- The set of instants inside interval `p` (half-open, as the source
treats `[start, end)` throughout). -/
def iSet (p : TimeIv) : Set ℤ := {t | p.1 ≤ t ∧ t < p.2}

/-- The set of instants covered by a list of intervals. -/
def unionOf (l : List TimeIv) : Set ℤ := {t | ∃ p ∈ l, p.1 ≤ t ∧ t < p.2}

/-- Stable insertion of `x` into `l`: `x` is placed before the first `y`
with `le x y`.  Elements comparing equal to `x` therefore stay behind `x`,
exactly as a stable sort keeps an earlier element before later equals. -/
def insertLe {α : Type} (le : α → α → Bool) (x : α) : List α → List α
  | [] => [x]
  | y :: ys => if le x y then x :: y :: ys else y :: insertLe le x ys

/-- Stable sort by `le` (models Python's stable `list.sort`). -/
def sortLe {α : Type} (le : α → α → Bool) : List α → List α
  | [] => []
  | x :: xs => insertLe le x (sortLe le xs)

/-- The per-event body of the loop in `events_for_day`: convert to the
resolving zone (identity on instants), keep the event iff it overlaps the
working window (strict tests `event_end > work_start`,
`event_start < work_end`), and clip it to the window. -/
def clip_to_day (day : ℤ) (e : TimeIv) : Option TimeIv :=
  if work_start day < e.2 ∧ e.1 < work_end day then
    some (max e.1 (work_start day), min e.2 (work_end day))
  else none

/-- The merge loop of `events_for_day`, with the accumulator `merged` kept
in reverse order (its head is Python's `merged[-1]`). -/
def merge_rev (acc : List TimeIv) : List TimeIv → List TimeIv
  | [] => acc.reverse
  | interval :: rest =>
    match acc with
    | [] => merge_rev [interval] rest
    | last :: accRest =>
      if interval.1 ≤ last.2 then
        merge_rev ((last.1, max last.2 interval.2) :: accRest) rest
      else
        merge_rev (interval :: last :: accRest) rest

/-- The merge loop viewed from its currently-open last interval `a`
(`merge_rev` with a nonempty accumulator unfolds to this; used in proofs). -/
def merge_run (a : TimeIv) : List TimeIv → List TimeIv
  | [] => [a]
  | b :: t => if b.1 ≤ a.2 then merge_run (a.1, max a.2 b.2) t else a :: merge_run b t

/-- `events_for_day(events, day, tzinfo)`: clip each event to the working
window of `day`, sort by start (stably), and merge touching or overlapping
intervals.  The time zone argument is identity on instants (see header). -/
def events_for_day (events : List TimeIv) (day : ℤ) : List TimeIv :=
  let day_events := events.filterMap (clip_to_day day)
  let sorted := sortLe (fun a b => decide (a.1 ≤ b.1)) day_events
  merge_rev [] sorted

/-- The `for i in range(len(busy)-1)` loop of `free_intervals_for_day`:
gaps between consecutive busy intervals. -/
def gaps_between : List TimeIv → List TimeIv
  | a :: b :: rest => (if a.2 < b.1 then [(a.2, b.1)] else []) ++ gaps_between (b :: rest)
  | _ => []

/-- The `busy[-1][1] < work_end` tail gap of `free_intervals_for_day`. -/
def after_last (we : ℤ) : List TimeIv → List TimeIv
  | [] => []
  | [a] => if a.2 < we then [(a.2, we)] else []
  | _ :: rest => after_last we rest

/-- `free_intervals_for_day(events, day, tzinfo, current_dt)`: the
complement of the merged busy list inside the working window, then (when a
current instant is supplied and the day is today) each free interval's
start is advanced to `max(start, current_dt)` and emptied intervals are
dropped. -/
def free_intervals_for_day (events : List TimeIv) (day : ℤ)
    (current_dt : Option ℤ) : List TimeIv :=
  let ws := work_start day
  let we := work_end day
  let busy := events_for_day events day
  let free :=
    match busy with
    | [] => [(ws, we)]
    | b :: bs =>
        (if ws < b.1 then [(ws, b.1)] else []) ++
          gaps_between (b :: bs) ++ after_last we (b :: bs)
  match current_dt with
  | none => free
  | some now =>
      if day = date_of now then
        free.filterMap (fun p =>
          let s := if now > p.1 then max p.1 now else p.1
          if s < p.2 then some (s, p.2) else none)
      else free

/-- The free-interval construction of `free_intervals_for_day` as one
left-to-right recursion on the busy list, carrying the left edge of the
remaining uncovered window (used in proofs; proved equal to the source's
head-gap / middle-gaps / tail-gap presentation below). -/
def comp_from (we : ℤ) : ℤ → List TimeIv → List TimeIv
  | ws, [] => if ws < we then [(ws, we)] else []
  | ws, b :: bs => (if ws < b.1 then [(ws, b.1)] else []) ++ comp_from we b.2 bs

/-- Rounding of an integer minute component to the nearest multiple of 5,
ignoring any seconds (remainders 3 and 4 round up, 0–2 round down).  This
is the rounding the source actually performs on the centred start's
`.minute`; the spec instead describes rounding that counts seconds with
ties at 2.5 minutes rounding up, which differs (see the C7 theorems). -/
def nearest_five_of_minute (m : ℤ) : ℤ :=
  if 3 ≤ m % 5 then m / 5 * 5 + 5 else m / 5 * 5

/-- `candidate_from_interval(interval, meeting_td)`.  The source's
`candidate_start.minute % 5 >= 2.5` compares an integer minute remainder
with 2.5; it is rendered exactly as `5 ≤ 2 * remainder`.  The stored score
is the slack in seconds (the source stores half of it; see header). -/
def candidate_from_interval (interval : TimeIv) (meeting_td : ℤ) :
    Option (ℤ × ℤ × ℤ) :=
  let start := interval.1
  let stop := interval.2
  let interval_td := stop - start
  if interval_td < meeting_td then none else
  let slack := interval_td - meeting_td
  let candidate_start := start + slack / 2
  let rounded_minute := (minute_of candidate_start / 5) * 5
  let rounded_minute :=
    if 5 ≤ 2 * (minute_of candidate_start % 5) then rounded_minute + 5
    else rounded_minute
  let candidate_start :=
    if 60 ≤ rounded_minute then candidate_start + 3600 else candidate_start
  let rounded_minute := if 60 ≤ rounded_minute then 0 else rounded_minute
  let candidate_start := hour_floor candidate_start + 60 * rounded_minute
  let candidate_end := candidate_start + meeting_td
  if candidate_start < start ∨ stop < candidate_end then none
  else some (slack, candidate_start, candidate_end)

/-- `infer_working_week(all_events)`: Monday of the week of the earliest
event date, or of "now" when there are no events (the source reads the
wall clock there; it is passed explicitly, with the same value the caller
`get_scheduling_days` received).  Returns `(monday, friday)`. -/
def infer_working_week (all_events : List TimeIv) (now : ℤ) : ℤ × ℤ :=
  let monday :=
    match all_events with
    | [] => date_of now - date_of now % 7
    | e :: es =>
        let min_event_date :=
          (es.map (fun ev => date_of ev.1)).foldl min (date_of e.1)
        min_event_date - min_event_date % 7
  (monday, monday + 4)

/-- `get_scheduling_days(all_events, current_dt)`. -/
def get_scheduling_days (all_events : List TimeIv) (current_dt : ℤ) : List ℤ :=
  let wk := infer_working_week all_events current_dt
  let today := date_of current_dt
  if wk.1 ≤ today ∧ today ≤ wk.2 then
    (List.range ((wk.2 - today).toNat + 1)).map (fun i : ℕ => today + (i : ℤ))
  else
    (List.range 5).map (fun i : ℕ => wk.1 + (i : ℤ))

/-- The slot descriptor `"YYYY-MM-DD: HH:MM-HH:MM"`, modelled by the
numeric fields the string displays: the calendar date rendered by
`strftime('%Y-%m-%d')` (kept as the day number, since `strftime` /
`strptime` with matching format strings are mutually inverse renderings of
the date) and the two `HH:MM` endpoints. -/
structure SlotStr where
  date : ℤ
  startHour : ℤ
  startMinute : ℤ
  endHour : ℤ
  endMinute : ℤ
deriving DecidableEq, Repr

/-- The f-string of `find_best_meeting_slots`:
`"{start:%Y-%m-%d}: {start:%H:%M}-{end:%H:%M}"` — the date component comes
from `start` only, and seconds are truncated away. -/
def format_slot (s e : ℤ) : SlotStr :=
  ⟨date_of s, hour_of s, minute_of s, hour_of e, minute_of e⟩

/-- An aware datetime: a wall-clock reading (seconds) together with the
UTC offset (seconds east of UTC) of its attached time zone. -/
abbrev AwareDT := ℤ × ℤ

/-- The absolute instant (UTC seconds) an aware datetime denotes; Python
compares, subtracts and serialises aware datetimes by this value. -/
def utc_instant (d : AwareDT) : ℤ := d.1 - d.2

/-- UTC offset of the resolving zone — `datetime.now().astimezone()` in
the Singapore deployment the fixed `SGT` constant is written for: modern
Asia/Singapore, +08:00.  An engine instant `t` (resolving wall seconds)
denotes the absolute instant `t - tz_resolving_offset`. -/
def tz_resolving_offset : ℤ := 28800

/-- UTC offset attached by `replace(tzinfo=SGT)` with
`SGT = pytz.timezone("Asia/Singapore")`: `replace` keeps the pytz zone
object's *base* offset — the zone's local mean time, +06:55 — because
only `localize` (not used by the source) selects the modern +08:00 rule.
The two offsets differ by 65 minutes (3900 s). -/
def SGT_replace_offset : ℤ := 24900

/-- `parse_selected_time(selected_time)` from update_schedule_2.py: split
the descriptor, `strptime` both `HH:MM` endpoints against the date part
(so both are rebuilt on the start's date), and attach the fixed zone via
`replace(tzinfo=SGT)`.  `strptime` fails on out-of-range fields, hence
the range guard; no comparison of the two endpoints is performed.  The
result is the pair of aware datetimes: the wall-clock fields read from
the descriptor, carrying the offset that `replace` attaches. -/
def parse_selected_time (s : SlotStr) : Option (AwareDT × AwareDT) :=
  if 0 ≤ s.startHour ∧ s.startHour < 24 ∧ 0 ≤ s.startMinute ∧ s.startMinute < 60 ∧
     0 ≤ s.endHour ∧ s.endHour < 24 ∧ 0 ≤ s.endMinute ∧ s.endMinute < 60 then
    some ((86400 * s.date + 3600 * s.startHour + 60 * s.startMinute, SGT_replace_offset),
          (86400 * s.date + 3600 * s.endHour + 60 * s.endMinute, SGT_replace_offset))
  else none

/-- The candidate-collection loops of `find_best_meeting_slots`: for each
scheduling day, compute free intervals (passing the current instant only
for today) and keep the candidate of each free interval. -/
def candidate_slots_for (all_events : List TimeIv) (meeting_td now : ℤ) :
    List (ℤ × ℤ × ℤ) :=
  (get_scheduling_days all_events now).flatMap (fun day =>
    (free_intervals_for_day all_events day
        (if day = date_of now then some now else none)).filterMap
      (fun interval => candidate_from_interval interval meeting_td))

/-- `find_best_meeting_slots(ics_contents, meeting_duration_minutes,
max_slots)`: pools of already-loaded events are concatenated (the ICS text
parsing itself is out of scope; each payload is its event list), candidates
are collected over the scheduling days, sorted by score descending
(stably, as `list.sort(reverse=True)`), truncated to `max_slots`, and
formatted.  `datetime.now().astimezone()`, read internally by the source,
is the explicit `now` argument. -/
def find_best_meeting_slots (ics_pools : List (List TimeIv))
    (meeting_duration_minutes : ℤ) (max_slots : ℕ) (now : ℤ) : List SlotStr :=
  let all_events := ics_pools.flatten
  let meeting_td := 60 * meeting_duration_minutes
  let candidate_slots := candidate_slots_for all_events meeting_td now
  let best_slots := (sortLe (fun a b => decide (b.1 ≤ a.1)) candidate_slots).take max_slots
  best_slots.map (fun c => format_slot c.2.1 c.2.2)

/-! ## Basic lemmas about interval unions -/

theorem unionOf_nil : unionOf [] = ∅ := by
  ext t; simp [unionOf]

theorem unionOf_cons (p : TimeIv) (l : List TimeIv) :
    unionOf (p :: l) = iSet p ∪ unionOf l := by
  ext t; simp [unionOf, iSet, Set.mem_union, Set.mem_setOf_eq]

theorem unionOf_append (l₁ l₂ : List TimeIv) :
    unionOf (l₁ ++ l₂) = unionOf l₁ ∪ unionOf l₂ := by
  ext t
  simp only [unionOf, Set.mem_union, Set.mem_setOf_eq, List.mem_append]
  constructor
  · rintro ⟨p, hp | hp, h⟩
    · exact Or.inl ⟨p, hp, h⟩
    · exact Or.inr ⟨p, hp, h⟩
  · rintro (⟨p, hp, h⟩ | ⟨p, hp, h⟩)
    · exact ⟨p, Or.inl hp, h⟩
    · exact ⟨p, Or.inr hp, h⟩

theorem unionOf_perm {l₁ l₂ : List TimeIv} (h : l₁.Perm l₂) :
    unionOf l₁ = unionOf l₂ := by
  ext t
  simp only [unionOf, Set.mem_setOf_eq]
  constructor
  · rintro ⟨p, hp, hm⟩; exact ⟨p, h.mem_iff.mp hp, hm⟩
  · rintro ⟨p, hp, hm⟩; exact ⟨p, h.mem_iff.mpr hp, hm⟩

/-! ## The stable sort -/

theorem insertLe_perm {α : Type} (le : α → α → Bool) (x : α) (l : List α) :
    (insertLe le x l).Perm (x :: l) := by
  induction l with
  | nil => exact List.Perm.refl _
  | cons y ys ih =>
      simp only [insertLe]
      split
      · exact List.Perm.refl _
      · exact (ih.cons y).trans (List.Perm.swap x y ys)

theorem sortLe_perm {α : Type} (le : α → α → Bool) (l : List α) :
    (sortLe le l).Perm l := by
  induction l with
  | nil => exact List.Perm.refl _
  | cons x xs ih => exact (insertLe_perm le x (sortLe le xs)).trans (ih.cons x)

theorem insertLe_pairwise {α : Type} {le : α → α → Bool}
    (hTrans : ∀ a b c, le a b = true → le b c = true → le a c = true)
    (hTotal : ∀ a b, le a b = true ∨ le b a = true)
    (x : α) {l : List α} (h : l.Pairwise (fun a b => le a b = true)) :
    (insertLe le x l).Pairwise (fun a b => le a b = true) := by
  induction l with
  | nil => simp [insertLe]
  | cons y ys ih =>
      rcases List.pairwise_cons.mp h with ⟨hy, hys⟩
      simp only [insertLe]
      split
      · rename_i hxy
        refine List.pairwise_cons.mpr ⟨?_, h⟩
        intro b hb
        rcases List.mem_cons.mp hb with rfl | hb
        · exact hxy
        · exact hTrans x y b hxy (hy b hb)
      · rename_i hxy
        refine List.pairwise_cons.mpr ⟨?_, ih hys⟩
        intro b hb
        rcases List.mem_cons.mp ((insertLe_perm le x ys).mem_iff.mp hb) with rfl | hb
        · rcases hTotal b y with hby | hyb
          · exact absurd hby hxy
          · exact hyb
        · exact hy b hb

theorem sortLe_pairwise {α : Type} {le : α → α → Bool}
    (hTrans : ∀ a b c, le a b = true → le b c = true → le a c = true)
    (hTotal : ∀ a b, le a b = true ∨ le b a = true) (l : List α) :
    (sortLe le l).Pairwise (fun a b => le a b = true) := by
  induction l with
  | nil => simp [sortLe]
  | cons x xs ih => exact insertLe_pairwise hTrans hTotal x ih

/-! ## The merge loop -/

theorem merge_rev_eq_run (xs : List TimeIv) :
    ∀ (a : TimeIv) (accT : List TimeIv),
      merge_rev (a :: accT) xs = accT.reverse ++ merge_run a xs := by
  induction xs with
  | nil => intro a accT; simp [merge_rev, merge_run]
  | cons i rest ih =>
      intro a accT
      simp only [merge_rev, merge_run]
      split
      · exact ih _ accT
      · rw [ih i (a :: accT)]; simp

theorem merge_run_start_lb (xs : List TimeIv) :
    ∀ a : TimeIv, (∀ p ∈ xs, a.1 ≤ p.1) →
      xs.Pairwise (fun p q => p.1 ≤ q.1) →
      ∀ q ∈ merge_run a xs, a.1 ≤ q.1 := by
  induction xs with
  | nil =>
      intro a _ _ q hq
      simp only [merge_run, List.mem_singleton] at hq
      exact hq ▸ le_refl _
  | cons b t ih =>
      intro a hstart hsort q hq
      rcases List.pairwise_cons.mp hsort with ⟨hbt, ht⟩
      simp only [merge_run] at hq
      split at hq
      · exact ih (a.1, max a.2 b.2)
          (fun p hp => hstart p (List.mem_cons_of_mem b hp)) ht q hq
      · rcases List.mem_cons.mp hq with rfl | hq
        · exact le_refl _
        · exact le_trans (hstart b (List.mem_cons_self b t)) (ih b hbt ht q hq)

theorem merge_run_chain (xs : List TimeIv) :
    ∀ a : TimeIv, (∀ p ∈ xs, a.1 ≤ p.1) →
      xs.Pairwise (fun p q => p.1 ≤ q.1) →
      (merge_run a xs).Pairwise (fun p q => p.2 < q.1) := by
  induction xs with
  | nil => intro a _ _; simp [merge_run]
  | cons b t ih =>
      intro a hstart hsort
      rcases List.pairwise_cons.mp hsort with ⟨hbt, ht⟩
      simp only [merge_run]
      split
      · exact ih (a.1, max a.2 b.2)
          (fun p hp => hstart p (List.mem_cons_of_mem b hp)) ht
      · rename_i hgap
        refine List.pairwise_cons.mpr ⟨?_, ih b hbt ht⟩
        intro q hq
        have hb1 : b.1 ≤ q.1 := merge_run_start_lb t b hbt ht q hq
        omega

theorem merge_run_bounds (xs : List TimeIv) (lo hi : ℤ) :
    ∀ a : TimeIv,
      (lo ≤ a.1 ∧ a.2 ≤ hi ∧ a.1 < a.2) →
      (∀ p ∈ xs, lo ≤ p.1 ∧ p.2 ≤ hi ∧ p.1 < p.2) →
      ∀ q ∈ merge_run a xs, lo ≤ q.1 ∧ q.2 ≤ hi ∧ q.1 < q.2 := by
  induction xs with
  | nil =>
      intro a ha _ q hq
      simp only [merge_run, List.mem_singleton] at hq
      exact hq ▸ ha
  | cons b t ih =>
      intro a ha hall q hq
      have hb := hall b (List.mem_cons_self b t)
      have hall' : ∀ p ∈ t, lo ≤ p.1 ∧ p.2 ≤ hi ∧ p.1 < p.2 :=
        fun p hp => hall p (List.mem_cons_of_mem b hp)
      simp only [merge_run] at hq
      split at hq
      · refine ih (a.1, max a.2 b.2) ?_ hall' q hq
        constructor
        · exact ha.1
        constructor
        · simp only [max_le_iff]; exact ⟨ha.2.1, hb.2.1⟩
        · have := ha.2.2; have := le_max_left a.2 b.2; omega
      · rcases List.mem_cons.mp hq with rfl | hq
        · exact ha
        · exact ih b hb hall' q hq

theorem merge_run_union (xs : List TimeIv) :
    ∀ a : TimeIv, (∀ p ∈ xs, a.1 ≤ p.1) →
      xs.Pairwise (fun p q => p.1 ≤ q.1) →
      unionOf (merge_run a xs) = iSet a ∪ unionOf xs := by
  induction xs with
  | nil => intro a _ _; simp [merge_run, unionOf_cons, unionOf_nil]
  | cons b t ih =>
      intro a hstart hsort
      rcases List.pairwise_cons.mp hsort with ⟨hbt, ht⟩
      have hab : a.1 ≤ b.1 := hstart b (List.mem_cons_self b t)
      simp only [merge_run]
      split
      · rename_i htouch
        rw [ih (a.1, max a.2 b.2)
            (fun p hp => hstart p (List.mem_cons_of_mem b hp)) ht]
        rw [unionOf_cons]
        have : iSet (a.1, max a.2 b.2) = iSet a ∪ iSet b := by
          ext t0
          simp only [iSet, Set.mem_union, Set.mem_setOf_eq]
          omega
        rw [this, Set.union_assoc]
      · rw [unionOf_cons, unionOf_cons, ih b hbt ht]

/-! ## Clipping to the working window -/

theorem clip_mem_bounds {events : List TimeIv} {day : ℤ} {c : TimeIv}
    (hev : ∀ e ∈ events, e.1 < e.2)
    (hc : c ∈ events.filterMap (clip_to_day day)) :
    work_start day ≤ c.1 ∧ c.2 ≤ work_end day ∧ c.1 < c.2 := by
  rcases List.mem_filterMap.mp hc with ⟨e, he, hclip⟩
  have hlt := hev e he
  unfold clip_to_day at hclip
  split at hclip
  · rename_i hcond
    rcases Option.some.inj hclip with rfl
    simp only [work_start, work_end] at hcond ⊢
    constructor
    · exact le_max_right _ _
    constructor
    · exact min_le_right _ _
    · simp only [lt_min_iff, max_lt_iff]
      omega
  · exact absurd hclip (Option.noConfusion)

theorem unionOf_clip (events : List TimeIv) (day : ℤ) :
    unionOf (events.filterMap (clip_to_day day)) =
      unionOf events ∩ iSet (work_start day, work_end day) := by
  induction events with
  | nil => simp [unionOf_nil]
  | cons e es ih =>
      rw [List.filterMap_cons]
      rcases hclip : clip_to_day day e with _ | c
      · unfold clip_to_day at hclip
        split at hclip
        · exact absurd hclip (Option.noConfusion)
        · rename_i hcond
          rw [ih, unionOf_cons, Set.union_inter_distrib_right]
          have : iSet e ∩ iSet (work_start day, work_end day) = ∅ := by
            ext t
            simp only [iSet, Set.mem_inter_iff, Set.mem_setOf_eq,
              Set.mem_empty_iff_false, iff_false]
            simp only [not_and] at hcond ⊢
            intro h1 h2 h3
            omega
          rw [this, Set.empty_union]
      · unfold clip_to_day at hclip
        split at hclip
        · rename_i hcond
          rcases Option.some.inj hclip with rfl
          rw [unionOf_cons, unionOf_cons, ih, Set.union_inter_distrib_right]
          have : iSet (max e.1 (work_start day), min e.2 (work_end day)) =
              iSet e ∩ iSet (work_start day, work_end day) := by
            ext t
            simp only [iSet, Set.mem_inter_iff, Set.mem_setOf_eq]
            omega
          rw [this]
        · exact absurd hclip (Option.noConfusion)

/-! ## `events_for_day` unfolded through the sort and the merge -/

theorem events_for_day_nil {events : List TimeIv} {day : ℤ}
    (h : sortLe (fun a b => decide (a.1 ≤ b.1))
        (events.filterMap (clip_to_day day)) = []) :
    events_for_day events day = [] := by
  unfold events_for_day
  show merge_rev []
    (sortLe (fun a b => decide (a.1 ≤ b.1)) (events.filterMap (clip_to_day day))) = []
  rw [h]
  simp [merge_rev]

theorem events_for_day_cons {events : List TimeIv} {day : ℤ}
    {x : TimeIv} {xs : List TimeIv}
    (h : sortLe (fun a b => decide (a.1 ≤ b.1))
        (events.filterMap (clip_to_day day)) = x :: xs) :
    events_for_day events day = merge_run x xs := by
  unfold events_for_day
  show merge_rev []
    (sortLe (fun a b => decide (a.1 ≤ b.1)) (events.filterMap (clip_to_day day))) =
    merge_run x xs
  rw [h]
  rw [show merge_rev [] (x :: xs) = merge_rev [x] xs from rfl,
    merge_rev_eq_run xs x []]
  simp

theorem sortLe_starts_pairwise (l : List TimeIv) :
    (sortLe (fun a b => decide (a.1 ≤ b.1)) l).Pairwise
      (fun p q : TimeIv => p.1 ≤ q.1) := by
  refine (sortLe_pairwise ?_ ?_ l).imp ?_
  · intro a b c hab hbc
    simp only [decide_eq_true_eq] at hab hbc ⊢
    exact le_trans hab hbc
  · intro a b
    simp only [decide_eq_true_eq]
    exact le_total a.1 b.1
  · intro a b h
    simpa using h

/-- **C1**: for every event pool (each event nonempty) and every target day,
the merged busy list returned by `events_for_day` is sorted by start
instant, pairwise disjoint as sets of instants, and its union is exactly
the union of the input events clipped to the working window
`[09:00, 17:00)` of that day (all instants read in the single resolving
time zone of the embedding). -/
theorem C1_events_for_day_merge_correct (events : List TimeIv) (day : ℤ)
    (hev : ∀ e ∈ events, e.1 < e.2) :
    (events_for_day events day).Pairwise (fun p q => p.1 ≤ q.1) ∧
    (events_for_day events day).Pairwise (fun p q => iSet p ∩ iSet q = ∅) ∧
    unionOf (events_for_day events day) =
      unionOf events ∩ iSet (work_start day, work_end day) := by
  have hperm := sortLe_perm (fun a b : TimeIv => decide (a.1 ≤ b.1))
    (events.filterMap (clip_to_day day))
  have hsorted := sortLe_starts_pairwise (events.filterMap (clip_to_day day))
  have hmem : ∀ p ∈ sortLe (fun a b : TimeIv => decide (a.1 ≤ b.1))
      (events.filterMap (clip_to_day day)),
      work_start day ≤ p.1 ∧ p.2 ≤ work_end day ∧ p.1 < p.2 :=
    fun p hp => clip_mem_bounds hev (hperm.mem_iff.mp hp)
  rcases hS : sortLe (fun a b : TimeIv => decide (a.1 ≤ b.1))
      (events.filterMap (clip_to_day day)) with _ | ⟨x, xs⟩
  · have hL : events.filterMap (clip_to_day day) = [] :=
      (hS ▸ hperm).symm.eq_nil
    rw [events_for_day_nil hS]
    refine ⟨List.Pairwise.nil, List.Pairwise.nil, ?_⟩
    rw [unionOf_nil, ← unionOf_clip, hL, unionOf_nil]
  · rw [hS] at hsorted hmem
    rcases List.pairwise_cons.mp hsorted with ⟨hbt, ht⟩
    have hx := hmem x (List.mem_cons_self x xs)
    have hxs : ∀ p ∈ xs, work_start day ≤ p.1 ∧ p.2 ≤ work_end day ∧ p.1 < p.2 :=
      fun p hp => hmem p (List.mem_cons_of_mem x hp)
    have hchain := merge_run_chain xs x hbt ht
    have hbounds := merge_run_bounds xs (work_start day) (work_end day) x hx hxs
    rw [events_for_day_cons hS]
    refine ⟨?_, ?_, ?_⟩
    · refine hchain.imp_of_mem ?_
      intro p q hp _ hpq
      have := (hbounds p hp).2.2
      omega
    · refine hchain.imp ?_
      intro p q hpq
      ext t
      simp only [iSet, Set.mem_inter_iff, Set.mem_setOf_eq,
        Set.mem_empty_iff_false, iff_false, not_and]
      omega
    · rw [merge_run_union xs x hbt ht, ← unionOf_cons, ← hS,
        unionOf_perm hperm, unionOf_clip]

/-- Witness for C1 at a concrete pool: two overlapping events and one
reaching in from before the window, on day 0. -/
theorem C1_witness :
    (∀ e ∈ ([(36000, 43200), (41400, 46800), (20000, 33000)] : List TimeIv),
        e.1 < e.2) ∧
    ((events_for_day [(36000, 43200), (41400, 46800), (20000, 33000)] 0).Pairwise
        (fun p q => p.1 ≤ q.1) ∧
     (events_for_day [(36000, 43200), (41400, 46800), (20000, 33000)] 0).Pairwise
        (fun p q => iSet p ∩ iSet q = ∅) ∧
     unionOf (events_for_day [(36000, 43200), (41400, 46800), (20000, 33000)] 0) =
       unionOf [(36000, 43200), (41400, 46800), (20000, 33000)] ∩
         iSet (work_start 0, work_end 0)) :=
  ⟨by decide, C1_events_for_day_merge_correct
    [(36000, 43200), (41400, 46800), (20000, 33000)] 0 (by decide)⟩

/-! ## Standalone structure of the merged busy list -/

theorem events_for_day_chain_bounds (events : List TimeIv) (day : ℤ)
    (hev : ∀ e ∈ events, e.1 < e.2) :
    (events_for_day events day).Pairwise (fun p q => p.2 < q.1) ∧
    ∀ p ∈ events_for_day events day,
      work_start day ≤ p.1 ∧ p.2 ≤ work_end day ∧ p.1 < p.2 := by
  have hperm := sortLe_perm (fun a b : TimeIv => decide (a.1 ≤ b.1))
    (events.filterMap (clip_to_day day))
  have hsorted := sortLe_starts_pairwise (events.filterMap (clip_to_day day))
  have hmem : ∀ p ∈ sortLe (fun a b : TimeIv => decide (a.1 ≤ b.1))
      (events.filterMap (clip_to_day day)),
      work_start day ≤ p.1 ∧ p.2 ≤ work_end day ∧ p.1 < p.2 :=
    fun p hp => clip_mem_bounds hev (hperm.mem_iff.mp hp)
  rcases hS : sortLe (fun a b : TimeIv => decide (a.1 ≤ b.1))
      (events.filterMap (clip_to_day day)) with _ | ⟨x, xs⟩
  · rw [events_for_day_nil hS]
    exact ⟨List.Pairwise.nil, by simp⟩
  · rw [hS] at hsorted hmem
    rcases List.pairwise_cons.mp hsorted with ⟨hbt, ht⟩
    rw [events_for_day_cons hS]
    exact ⟨merge_run_chain xs x hbt ht,
      merge_run_bounds xs (work_start day) (work_end day) x
        (hmem x (List.mem_cons_self x xs))
        (fun p hp => hmem p (List.mem_cons_of_mem x hp))⟩

/-! ## The free-interval complement -/

theorem gaps_after_eq (bs : List TimeIv) :
    ∀ (b : TimeIv) (we : ℤ),
      gaps_between (b :: bs) ++ after_last we (b :: bs) = comp_from we b.2 bs := by
  induction bs with
  | nil => intro b we; simp [gaps_between, after_last, comp_from]
  | cons c t ih =>
      intro b we
      show ((if b.2 < c.1 then [(b.2, c.1)] else []) ++ gaps_between (c :: t)) ++
          after_last we (c :: t) = comp_from we b.2 (c :: t)
      rw [List.append_assoc, ih c we]
      rfl

theorem free_intervals_none_eq (events : List TimeIv) (day : ℤ) :
    free_intervals_for_day events day none =
      comp_from (work_end day) (work_start day) (events_for_day events day) := by
  rcases hB : events_for_day events day with _ | ⟨b, bs⟩
  · simp only [free_intervals_for_day, hB, comp_from]
    rw [if_pos]
    simp only [work_start, work_end]
    omega
  · simp only [free_intervals_for_day, hB, comp_from]
    rw [← gaps_after_eq bs b (work_end day), List.append_assoc]

theorem unionOf_gap (ws e : ℤ) :
    unionOf (if ws < e then [(ws, e)] else []) = iSet (ws, e) := by
  split
  · rw [unionOf_cons, unionOf_nil]
    ext t; simp [iSet]
  · rw [unionOf_nil]
    ext t
    simp only [iSet, Set.mem_setOf_eq, Set.mem_empty_iff_false, false_iff, not_and]
    omega

theorem comp_from_mem_bounds (busy : List TimeIv) (we : ℤ) :
    ∀ ws : ℤ,
      (∀ p ∈ busy, ws ≤ p.1 ∧ p.2 ≤ we ∧ p.1 < p.2) →
      busy.Pairwise (fun p q => p.2 < q.1) →
      ∀ f ∈ comp_from we ws busy, ws ≤ f.1 ∧ f.2 ≤ we ∧ f.1 < f.2 := by
  induction busy with
  | nil =>
      intro ws _ _ f hf
      simp only [comp_from] at hf
      split at hf
      · simp only [List.mem_singleton] at hf
        subst hf
        rename_i h; exact ⟨le_refl _, le_refl _, h⟩
      · simp at hf
  | cons b bs ih =>
      intro ws hin hchain f hf
      rcases List.pairwise_cons.mp hchain with ⟨hb_bs, hbs⟩
      have hb := hin b (List.mem_cons_self b bs)
      simp only [comp_from, List.mem_append] at hf
      rcases hf with hf | hf
      · split at hf
        · simp only [List.mem_singleton] at hf
          subst hf
          rename_i hlt
          exact ⟨le_refl _, by omega, hlt⟩
        · simp at hf
      · have hin' : ∀ p ∈ bs, b.2 ≤ p.1 ∧ p.2 ≤ we ∧ p.1 < p.2 := by
          intro p hp
          have h1 := hb_bs p hp
          have h2 := hin p (List.mem_cons_of_mem b hp)
          exact ⟨le_of_lt h1, h2.2.1, h2.2.2⟩
        have := ih b.2 hin' hbs f hf
        exact ⟨by omega, this.2.1, this.2.2⟩

theorem comp_from_union (busy : List TimeIv) (we : ℤ) :
    ∀ ws : ℤ,
      (∀ p ∈ busy, ws ≤ p.1 ∧ p.2 ≤ we ∧ p.1 < p.2) →
      busy.Pairwise (fun p q => p.2 < q.1) →
      unionOf (comp_from we ws busy) ∪ unionOf busy = iSet (ws, we) := by
  induction busy with
  | nil =>
      intro ws _ _
      rw [unionOf_nil, Set.union_empty]
      show unionOf (if ws < we then [(ws, we)] else []) = iSet (ws, we)
      exact unionOf_gap ws we
  | cons b bs ih =>
      intro ws hin hchain
      rcases List.pairwise_cons.mp hchain with ⟨hb_bs, hbs⟩
      have hb := hin b (List.mem_cons_self b bs)
      have hin' : ∀ p ∈ bs, b.2 ≤ p.1 ∧ p.2 ≤ we ∧ p.1 < p.2 := by
        intro p hp
        have h1 := hb_bs p hp
        have h2 := hin p (List.mem_cons_of_mem b hp)
        exact ⟨le_of_lt h1, h2.2.1, h2.2.2⟩
      have hIH := ih b.2 hin' hbs
      show unionOf ((if ws < b.1 then [(ws, b.1)] else []) ++ comp_from we b.2 bs) ∪
          unionOf (b :: bs) = iSet (ws, we)
      rw [unionOf_append, unionOf_gap, unionOf_cons]
      have hshuffle :
          (iSet (ws, b.1) ∪ unionOf (comp_from we b.2 bs)) ∪ (iSet b ∪ unionOf bs) =
            (iSet (ws, b.1) ∪ iSet b) ∪
              (unionOf (comp_from we b.2 bs) ∪ unionOf bs) := by
        ext t
        simp only [Set.mem_union]
        tauto
      rw [hshuffle, hIH]
      ext t
      simp only [iSet, Set.mem_union, Set.mem_setOf_eq]
      have h1 := hb.1
      have h2 := hb.2.1
      have h3 := hb.2.2
      omega

theorem comp_from_disjoint (busy : List TimeIv) (we : ℤ) :
    ∀ ws : ℤ,
      (∀ p ∈ busy, ws ≤ p.1 ∧ p.2 ≤ we ∧ p.1 < p.2) →
      busy.Pairwise (fun p q => p.2 < q.1) →
      ∀ f ∈ comp_from we ws busy, ∀ b ∈ busy, iSet f ∩ iSet b = ∅ := by
  induction busy with
  | nil => intro ws _ _ f _ b hb; simp at hb
  | cons b bs ih =>
      intro ws hin hchain f hf q hq
      rcases List.pairwise_cons.mp hchain with ⟨hb_bs, hbs⟩
      have hb := hin b (List.mem_cons_self b bs)
      have hin' : ∀ p ∈ bs, b.2 ≤ p.1 ∧ p.2 ≤ we ∧ p.1 < p.2 := by
        intro p hp
        have h1 := hb_bs p hp
        have h2 := hin p (List.mem_cons_of_mem b hp)
        exact ⟨le_of_lt h1, h2.2.1, h2.2.2⟩
      simp only [comp_from, List.mem_append] at hf
      rcases hf with hf | hf
      · have hfgap : f.1 = ws ∧ f.2 ≤ b.1 := by
          split at hf
          · simp only [List.mem_singleton] at hf
            subst hf; exact ⟨rfl, le_refl _⟩
          · simp at hf
        rcases List.mem_cons.mp hq with rfl | hq
        · ext t
          simp only [iSet, Set.mem_inter_iff, Set.mem_setOf_eq,
            Set.mem_empty_iff_false, iff_false, not_and]
          omega
        · have hq1 := hb_bs q hq
          ext t
          simp only [iSet, Set.mem_inter_iff, Set.mem_setOf_eq,
            Set.mem_empty_iff_false, iff_false, not_and]
          have := hb.2.2
          omega
      · rcases List.mem_cons.mp hq with rfl | hq
        · have hfb := comp_from_mem_bounds bs we q.2 hin' hbs f hf
          ext t
          simp only [iSet, Set.mem_inter_iff, Set.mem_setOf_eq,
            Set.mem_empty_iff_false, iff_false, not_and]
          have := hfb.1
          omega
        · exact ih b.2 hin' hbs f hf q hq

/-- **C2**: for every event pool (each event nonempty) and every target day,
with no current-instant clipping (`current_dt = None`), every free interval
returned by `free_intervals_for_day` is disjoint from every busy interval
returned by `events_for_day`, and together their unions are exactly the
working window `[09:00, 17:00)` of that day. -/
theorem C2_free_busy_partition (events : List TimeIv) (day : ℤ)
    (hev : ∀ e ∈ events, e.1 < e.2) :
    (∀ f ∈ free_intervals_for_day events day none,
       ∀ b ∈ events_for_day events day, iSet f ∩ iSet b = ∅) ∧
    unionOf (free_intervals_for_day events day none) ∪
        unionOf (events_for_day events day) =
      iSet (work_start day, work_end day) := by
  rcases events_for_day_chain_bounds events day hev with ⟨hchain, hbounds⟩
  rw [free_intervals_none_eq]
  exact ⟨comp_from_disjoint (events_for_day events day) (work_end day)
      (work_start day) hbounds hchain,
    comp_from_union (events_for_day events day) (work_end day)
      (work_start day) hbounds hchain⟩

/-- Witness for C2 at the same concrete pool as the C1 witness. -/
theorem C2_witness :
    (∀ e ∈ ([(36000, 43200), (41400, 46800), (20000, 33000)] : List TimeIv),
        e.1 < e.2) ∧
    ((∀ f ∈ free_intervals_for_day
          [(36000, 43200), (41400, 46800), (20000, 33000)] 0 none,
        ∀ b ∈ events_for_day [(36000, 43200), (41400, 46800), (20000, 33000)] 0,
          iSet f ∩ iSet b = ∅) ∧
     unionOf (free_intervals_for_day
          [(36000, 43200), (41400, 46800), (20000, 33000)] 0 none) ∪
         unionOf (events_for_day [(36000, 43200), (41400, 46800), (20000, 33000)] 0) =
       iSet (work_start 0, work_end 0)) :=
  ⟨by decide, C2_free_busy_partition
    [(36000, 43200), (41400, 46800), (20000, 33000)] 0 (by decide)⟩

/-! ## Candidate generation -/

theorem candidate_some_duration (interval : TimeIv) (meeting_td : ℤ)
    (c : ℤ × ℤ × ℤ) (h : candidate_from_interval interval meeting_td = some c) :
    c.2.2 - c.2.1 = meeting_td := by
  simp only [candidate_from_interval] at h
  repeat' split at h
  all_goals first
    | exact Option.noConfusion h
    | (rcases Option.some.inj h with rfl; dsimp only; omega)

/-- **C3**: every candidate produced by `candidate_from_interval` — and
hence every candidate collected by `find_best_meeting_slots` for a
requested duration of `duration_minutes` minutes — has
`end - start = meeting duration`, the rounding of the start having been
followed by recomputing the end from the rounded start. -/
theorem C3_duration_invariant :
    (∀ (interval : TimeIv) (meeting_td : ℤ) (c : ℤ × ℤ × ℤ),
        candidate_from_interval interval meeting_td = some c →
        c.2.2 - c.2.1 = meeting_td) ∧
    (∀ (all_events : List TimeIv) (duration_minutes now : ℤ) (c : ℤ × ℤ × ℤ),
        c ∈ candidate_slots_for all_events (60 * duration_minutes) now →
        c.2.2 - c.2.1 = 60 * duration_minutes) := by
  refine ⟨candidate_some_duration, ?_⟩
  intro all_events duration_minutes now c hc
  unfold candidate_slots_for at hc
  rcases List.mem_flatMap.mp hc with ⟨day, _, hc2⟩
  rcases List.mem_filterMap.mp hc2 with ⟨interval, _, hcand⟩
  exact candidate_some_duration interval _ c hcand

/-- Witness for C3: the full working window of day 0 with a 30-minute
request yields the centred candidate 12:45–13:15, of exact duration. -/
theorem C3_witness :
    candidate_from_interval (32400, 61200) 1800 = some (27000, 45900, 47700) ∧
    (47700 : ℤ) - 45900 = 1800 :=
  ⟨by decide,
    C3_duration_invariant.1 (32400, 61200) 1800 (27000, 45900, 47700) (by decide)⟩

/-- **C7 (counterexample)**: the claim says the centred start's minute is
rounded to the nearest 5-minute boundary *counting seconds*, a tie at
exactly 2.5 minutes rounding *up*.  For the interval 09:00–09:35 of day 0
with a 30-minute request, the centred start is 09:02:30 — exactly 2.5
minutes past the lower boundary — yet the source rounds it *down* to
09:00 (instant 32400), not up to 09:05 (instant 32700), because it
inspects only the integer minute component (2, with remainder 2 < 2.5). -/
theorem C7_counterexample :
    candidate_from_interval (32400, 34500) 1800 = some (300, 32400, 34200) ∧
    (32400 : ℤ) + (34500 - 32400 - 1800) / 2 = 32550 ∧
    minute_of 32550 = 2 ∧ (32550 : ℤ) % 60 = 30 ∧
    minute_of 32400 = 0 ∧ (32400 : ℤ) ≠ 32700 := by decide

/-- **C7 (amended)**: for every candidate kept by
`candidate_from_interval`, the returned start is the centred start with
seconds (and sub-seconds) zeroed and its *integer minute component*
rounded to the nearest 5-minute boundary ignoring seconds (remainders 3–4
round up, 0–2 round down; in particular a point exactly 2.5 minutes past
the lower boundary, counting seconds, rounds down), a roll past minute 60
carrying one hour; consequently every returned start minute is a multiple
of 5 and every returned start has zero seconds. -/
theorem C7_rounding_minute_component (interval : TimeIv) (meeting_td : ℤ)
    (c : ℤ × ℤ × ℤ) (h : candidate_from_interval interval meeting_td = some c) :
    c.2.1 = hour_floor (interval.1 + (interval.2 - interval.1 - meeting_td) / 2) +
      60 * nearest_five_of_minute
        (minute_of (interval.1 + (interval.2 - interval.1 - meeting_td) / 2)) ∧
    minute_of c.2.1 % 5 = 0 ∧ c.2.1 % 60 = 0 := by
  simp only [candidate_from_interval, minute_of, hour_floor] at h
  simp only [nearest_five_of_minute, minute_of, hour_floor]
  repeat' split at h
  all_goals first
    | exact Option.noConfusion h
    | (rcases Option.some.inj h with rfl
       dsimp only
       refine ⟨?_, ?_, ?_⟩ <;> (try split) <;> omega)

/-- Witness for the amended C7 at the counterexample input: the returned
start 09:00 is the centred start 09:02:30 with its minute component 2
rounded down, zero seconds, and a minute that is a multiple of 5. -/
theorem C7_witness :
    candidate_from_interval (32400, 34500) 1800 = some (300, 32400, 34200) ∧
    ((32400 : ℤ) = hour_floor (32400 + (34500 - 32400 - 1800) / 2) +
        60 * nearest_five_of_minute
          (minute_of (32400 + (34500 - 32400 - 1800) / 2)) ∧
      minute_of 32400 % 5 = 0 ∧ (32400 : ℤ) % 60 = 0) :=
  ⟨by decide,
    C7_rounding_minute_component (32400, 34500) 1800 (300, 32400, 34200) (by decide)⟩

/-- **C9**: an event that only touches a working-window boundary — its end
equal to 09:00 or its start equal to 17:00 of the target day — contributes
nothing: both the merged busy list and the free intervals are the same as
if the event were absent, because the overlap test uses strict
inequalities.  The touching boundary instant therefore stays exactly as
free as it was without the event. -/
theorem C9_boundary_touch (l r : List TimeIv) (e : TimeIv) (day : ℤ)
    (cur : Option ℤ)
    (h : e.2 = work_start day ∨ e.1 = work_end day) :
    events_for_day (l ++ e :: r) day = events_for_day (l ++ r) day ∧
    free_intervals_for_day (l ++ e :: r) day cur =
      free_intervals_for_day (l ++ r) day cur := by
  have hclip : clip_to_day day e = none := by
    unfold clip_to_day
    rw [if_neg]
    rintro ⟨h1, h2⟩
    rcases h with h | h <;> omega
  have hfm : (l ++ e :: r).filterMap (clip_to_day day) =
      (l ++ r).filterMap (clip_to_day day) := by
    rw [List.filterMap_append, List.filterMap_append, List.filterMap_cons, hclip]
  have hev : events_for_day (l ++ e :: r) day = events_for_day (l ++ r) day := by
    unfold events_for_day
    show merge_rev [] (sortLe (fun a b => decide (a.1 ≤ b.1))
        ((l ++ e :: r).filterMap (clip_to_day day))) = merge_rev []
      (sortLe (fun a b => decide (a.1 ≤ b.1)) ((l ++ r).filterMap (clip_to_day day)))
    rw [hfm]
  refine ⟨hev, ?_⟩
  simp only [free_intervals_for_day, hev]

/-- Witness for C9: an 08:00–09:00 event on day 0 leaves the busy and free
lists of day 0 unchanged. -/
theorem C9_witness :
    (((28800, 32400) : TimeIv).2 = work_start 0 ∨
      ((28800, 32400) : TimeIv).1 = work_end 0) ∧
    (events_for_day ([(36000, 43200)] ++ (28800, 32400) :: []) 0 =
        events_for_day ([(36000, 43200)] ++ []) 0 ∧
      free_intervals_for_day ([(36000, 43200)] ++ (28800, 32400) :: []) 0 none =
        free_intervals_for_day ([(36000, 43200)] ++ []) 0 none) :=
  ⟨by decide,
    C9_boundary_touch [(36000, 43200)] [] (28800, 32400) 0 none (by decide)⟩

/-! ## Scheduling days -/

theorem infer_week_friday (all_events : List TimeIv) (now : ℤ) :
    (infer_working_week all_events now).2 = (infer_working_week all_events now).1 + 4 := by
  unfold infer_working_week
  rcases all_events with _ | ⟨e, es⟩ <;> rfl

/-- **C6**: the inferred week runs Monday to Friday (`friday = monday + 4`);
the scheduling days are strictly increasing, and a day `d` is scheduled iff
it lies between today (when today falls inside the inferred week) or the
inferred Monday (otherwise) and that Friday, inclusive.  In particular when
"now" is the Thursday of the inferred week, the scheduling days are exactly
{Thursday, Friday}. -/
theorem C6_scheduling_days (all_events : List TimeIv) (now : ℤ) :
    (infer_working_week all_events now).2 = (infer_working_week all_events now).1 + 4 ∧
    (get_scheduling_days all_events now).Pairwise (fun a b => a < b) ∧
    (∀ d : ℤ, d ∈ get_scheduling_days all_events now ↔
      (if (infer_working_week all_events now).1 ≤ date_of now ∧
          date_of now ≤ (infer_working_week all_events now).2 then
        date_of now ≤ d ∧ d ≤ (infer_working_week all_events now).2
      else
        (infer_working_week all_events now).1 ≤ d ∧
          d ≤ (infer_working_week all_events now).2)) ∧
    (date_of now = (infer_working_week all_events now).1 + 3 →
      get_scheduling_days all_events now =
        [(infer_working_week all_events now).1 + 3,
         (infer_working_week all_events now).1 + 4]) := by
  have hfri := infer_week_friday all_events now
  refine ⟨hfri, ?_, ?_, ?_⟩
  · simp only [get_scheduling_days]
    split
    · refine (List.pairwise_map).mpr ?_
      refine (List.pairwise_lt_range _).imp ?_
      intro a b hab
      omega
    · refine (List.pairwise_map).mpr ?_
      refine (List.pairwise_lt_range _).imp ?_
      intro a b hab
      omega
  · intro d
    simp only [get_scheduling_days]
    split
    · rename_i hcond
      simp only [List.mem_map, List.mem_range]
      constructor
      · rintro ⟨i, hi, rfl⟩
        constructor
        · omega
        · have : (i : ℤ) ≤ (infer_working_week all_events now).2 - date_of now := by
            omega
          omega
      · rintro ⟨hd1, hd2⟩
        refine ⟨(d - date_of now).toNat, by omega, by omega⟩
    · rename_i hcond
      simp only [List.mem_map, List.mem_range]
      constructor
      · rintro ⟨i, hi, rfl⟩
        omega
      · rintro ⟨hd1, hd2⟩
        refine ⟨(d - (infer_working_week all_events now).1).toNat, by omega, by omega⟩
  · intro hthu
    simp only [get_scheduling_days]
    rw [if_pos (by omega)]
    rw [show ((infer_working_week all_events now).2 - date_of now).toNat + 1 = 2 by omega]
    rw [show List.range 2 = [0, 1] from rfl]
    simp only [List.map_cons, List.map_nil]
    rw [hthu]
    norm_num
    omega

/-- Witness for C6: no events, "now" at 00:00 of day 3 (the Thursday of
the week of days 0–4): the scheduling days are exactly [3, 4]. -/
theorem C6_witness :
    (date_of 259200 = (infer_working_week [] 259200).1 + 3) ∧
    get_scheduling_days [] 259200 =
      [(infer_working_week [] 259200).1 + 3, (infer_working_week [] 259200).1 + 4] :=
  ⟨by decide, (C6_scheduling_days [] 259200).2.2.2 (by decide)⟩

/-! ## Formatting and parsing of slot descriptors -/

theorem candidate_some_facts (interval : TimeIv) (meeting_td : ℤ)
    (c : ℤ × ℤ × ℤ) (h : candidate_from_interval interval meeting_td = some c) :
    interval.1 ≤ c.2.1 ∧ c.2.2 ≤ interval.2 ∧ c.2.2 = c.2.1 + meeting_td ∧
      c.2.1 % 60 = 0 := by
  simp only [candidate_from_interval, minute_of, hour_floor] at h
  repeat' split at h
  all_goals first
    | exact Option.noConfusion h
    | (rcases Option.some.inj h with rfl
       dsimp only
       refine ⟨by omega, by omega, by omega, by omega⟩)

/-- **C4 (counterexample)**: parse after format is *not* the identity on
instants.  The valid candidate 12:45–13:15 of day 0 — wall seconds
45900/47700 in the +08:00 resolving zone, hence absolute instants
17100/18900 — formats to "(day 0): 12:45-13:15", and
`parse_selected_time` rebuilds the same wall-clock readings but attaches
pytz's +06:55 base offset, so the parsed start denotes absolute instant
21000, not the candidate's 17100: every parsed instant is 65 minutes
(3900 s) late. -/
theorem C4_counterexample :
    candidate_from_interval (32400, 61200) 1800 = some (27000, 45900, 47700) ∧
    parse_selected_time (format_slot 45900 47700) =
      some ((45900, SGT_replace_offset), (47700, SGT_replace_offset)) ∧
    utc_instant (45900, SGT_replace_offset) = 21000 ∧
    utc_instant (45900, tz_resolving_offset) = 17100 ∧
    (21000 : ℤ) ≠ 17100 ∧ (21000 : ℤ) - 17100 = 3900 := by decide

/-- **C4 (amended)**: for a candidate produced by
`candidate_from_interval` from a free interval lying inside the working
window of some day, with a non-negative whole-minute requested duration
(as `find_best_meeting_slots` always passes), parsing the formatted
descriptor `"YYYY-MM-DD: HH:MM-HH:MM"` with `parse_selected_time`
recovers exactly the candidate's wall-clock readings — same date (the
start's date, used for both endpoints), same HH:MM boundaries, zero
seconds — but attaches pytz's Asia/Singapore base offset (+06:55) rather
than the engine's resolving zone (+08:00), so each reconstructed instant
is exactly 65 minutes (3900 s) later than the candidate's: parse after
format is the identity on wall-clock readings, not on instants. -/
theorem C4_parse_format_wall_roundtrip (day : ℤ) (interval : TimeIv)
    (duration_minutes : ℤ) (c : ℤ × ℤ × ℤ)
    (hlo : work_start day ≤ interval.1) (hhi : interval.2 ≤ work_end day)
    (hdur : 0 ≤ duration_minutes)
    (h : candidate_from_interval interval (60 * duration_minutes) = some c) :
    parse_selected_time (format_slot c.2.1 c.2.2) =
      some ((c.2.1, SGT_replace_offset), (c.2.2, SGT_replace_offset)) ∧
    utc_instant (c.2.1, SGT_replace_offset) -
        utc_instant (c.2.1, tz_resolving_offset) = 3900 ∧
    utc_instant (c.2.2, SGT_replace_offset) -
        utc_instant (c.2.2, tz_resolving_offset) = 3900 := by
  obtain ⟨h1, h2, h3, h4⟩ := candidate_some_facts interval _ c h
  simp only [work_start, work_end] at hlo hhi
  have hs1 : 86400 * day + 32400 ≤ c.2.1 := by omega
  have hs2 : c.2.2 ≤ 86400 * day + 61200 := by omega
  have hs3 : c.2.1 ≤ c.2.2 := by omega
  refine ⟨?_, ?_, ?_⟩
  · simp only [parse_selected_time, format_slot, date_of, hour_of, minute_of]
    rw [if_pos]
    · simp only [Option.some.injEq, Prod.mk.injEq]
      exact ⟨⟨by omega, trivial⟩, ⟨by omega, trivial⟩⟩
    · refine ⟨by omega, by omega, by omega, by omega, by omega, by omega, by omega,
        by omega⟩
  · unfold utc_instant SGT_replace_offset tz_resolving_offset
    omega
  · unfold utc_instant SGT_replace_offset tz_resolving_offset
    omega

/-- Witness for the amended C4: the centred candidate 12:45–13:15 of day 0
formats to "(day 0): 12:45-13:15" and parses back to the same wall
readings (45900, 47700) carrying the +06:55 offset, each 3900 s late as
an instant. -/
theorem C4_witness :
    (work_start 0 ≤ ((32400, 61200) : TimeIv).1 ∧
      ((32400, 61200) : TimeIv).2 ≤ work_end 0 ∧ (0 : ℤ) ≤ 30 ∧
      candidate_from_interval (32400, 61200) (60 * 30) = some (27000, 45900, 47700)) ∧
    (parse_selected_time (format_slot 45900 47700) =
        some ((45900, SGT_replace_offset), (47700, SGT_replace_offset)) ∧
      utc_instant (45900, SGT_replace_offset) -
          utc_instant (45900, tz_resolving_offset) = 3900 ∧
      utc_instant (47700, SGT_replace_offset) -
          utc_instant (47700, tz_resolving_offset) = 3900) :=
  ⟨⟨by decide, by decide, by decide, by decide⟩,
    C4_parse_format_wall_roundtrip 0 (32400, 61200) 30 (27000, 45900, 47700)
      (by decide) (by decide) (by decide) (by decide)⟩

/-- **C10**: `parse_selected_time` performs no ordering validation: every
descriptor of the well-formed shape `"YYYY-MM-DD: HH:MM-HH:MM"` (hours in
0–23, minutes in 0–59, which is all `strptime` checks) parses to the pair
of aware datetimes read off its fields — both carrying the attached
fixed-zone offset — with no error and no comparison of the two endpoints:
an inverted or empty range is returned as-is. -/
theorem C10_no_order_validation (s : SlotStr)
    (h1 : 0 ≤ s.startHour) (h2 : s.startHour < 24)
    (h3 : 0 ≤ s.startMinute) (h4 : s.startMinute < 60)
    (h5 : 0 ≤ s.endHour) (h6 : s.endHour < 24)
    (h7 : 0 ≤ s.endMinute) (h8 : s.endMinute < 60) :
    parse_selected_time s =
      some ((86400 * s.date + 3600 * s.startHour + 60 * s.startMinute,
              SGT_replace_offset),
            (86400 * s.date + 3600 * s.endHour + 60 * s.endMinute,
              SGT_replace_offset)) := by
  unfold parse_selected_time
  rw [if_pos]
  exact ⟨h1, h2, h3, h4, h5, h6, h7, h8⟩

/-- Witness for C10: the inverted descriptor "(day 0): 14:00-09:00" parses
without error to wall readings (50400, 32400) — an end lying *before* its
start, both as wall times and as instants (the two endpoints carry the
same attached offset). -/
theorem C10_witness :
    ((0 : ℤ) ≤ 14 ∧ (14 : ℤ) < 24 ∧ (0 : ℤ) ≤ 0 ∧ (0 : ℤ) < 60 ∧
      (0 : ℤ) ≤ 9 ∧ (9 : ℤ) < 24 ∧ (0 : ℤ) ≤ 0 ∧ (0 : ℤ) < 60) ∧
    parse_selected_time ⟨0, 14, 0, 9, 0⟩ =
      some ((50400, SGT_replace_offset), (32400, SGT_replace_offset)) ∧
    utc_instant (32400, SGT_replace_offset) < utc_instant (50400, SGT_replace_offset) :=
  ⟨⟨by decide, by decide, by decide, by decide, by decide, by decide, by decide,
      by decide⟩,
    C10_no_order_validation ⟨0, 14, 0, 9, 0⟩ (by decide) (by decide) (by decide)
      (by decide) (by decide) (by decide) (by decide) (by decide),
    by decide⟩

/-! ## Duration handling and Scenario A -/

theorem candidate_nonpos_isSome (day d : ℤ) (hd : d ≤ 0) :
    ∃ c, candidate_from_interval (work_start day, work_end day) (60 * d) = some c := by
  simp only [candidate_from_interval, minute_of, hour_floor, work_start, work_end]
  repeat' split
  all_goals first
    | exact ⟨_, rfl⟩
    | (exfalso; omega)

/-- **C5 (counterexample)**: `find_best_meeting_slots` applies no duration
validation at all: called with duration 0 (two empty calendars, "now" =
Monday 00:00 of day 0) it neither raises nor rejects — the calendars are
processed, the interval machinery runs, and five zero-length slots
"13:00-13:00" (one per weekday) are returned, instead of the
`InvalidDuration` failure the claim requires. -/
theorem C5_counterexample :
    find_best_meeting_slots [[], []] 0 10 0 =
      [⟨0, 13, 0, 13, 0⟩, ⟨1, 13, 0, 13, 0⟩, ⟨2, 13, 0, 13, 0⟩,
       ⟨3, 13, 0, 13, 0⟩, ⟨4, 13, 0, 13, 0⟩] := by decide

/-- **C5 (amended)**: `find_best_meeting_slots` performs no duration
validation: for every `duration_minutes ≤ 0` the call proceeds through
calendar loading and the full interval computation and returns formatted
slots as usual (with two empty calendars and "now" = Monday 00:00, one
slot per weekday — five in total, zero- or negative-length), rather than
failing with `InvalidDuration` before any calendar parsing. -/
theorem C5_no_duration_rejection (d : ℤ) (hd : d ≤ 0) :
    (find_best_meeting_slots [[], []] d 10 0).length = 5 := by
  obtain ⟨c0, hc0⟩ := candidate_nonpos_isSome 0 d hd
  obtain ⟨c1, hc1⟩ := candidate_nonpos_isSome 1 d hd
  obtain ⟨c2, hc2⟩ := candidate_nonpos_isSome 2 d hd
  obtain ⟨c3, hc3⟩ := candidate_nonpos_isSome 3 d hd
  obtain ⟨c4, hc4⟩ := candidate_nonpos_isSome 4 d hd
  have hslots : candidate_slots_for ([[], []] : List (List TimeIv)).flatten
      (60 * d) 0 = [c0, c1, c2, c3, c4] := by
    have hdays : get_scheduling_days ([[], []] : List (List TimeIv)).flatten 0 =
        [0, 1, 2, 3, 4] := by decide
    have e0 : free_intervals_for_day ([[], []] : List (List TimeIv)).flatten 0
        (if (0 : ℤ) = date_of 0 then some 0 else none) =
        [(work_start 0, work_end 0)] := by decide
    have e1 : free_intervals_for_day ([[], []] : List (List TimeIv)).flatten 1
        (if (1 : ℤ) = date_of 0 then some 0 else none) =
        [(work_start 1, work_end 1)] := by decide
    have e2 : free_intervals_for_day ([[], []] : List (List TimeIv)).flatten 2
        (if (2 : ℤ) = date_of 0 then some 0 else none) =
        [(work_start 2, work_end 2)] := by decide
    have e3 : free_intervals_for_day ([[], []] : List (List TimeIv)).flatten 3
        (if (3 : ℤ) = date_of 0 then some 0 else none) =
        [(work_start 3, work_end 3)] := by decide
    have e4 : free_intervals_for_day ([[], []] : List (List TimeIv)).flatten 4
        (if (4 : ℤ) = date_of 0 then some 0 else none) =
        [(work_start 4, work_end 4)] := by decide
    simp only [candidate_slots_for, hdays, List.flatMap_cons, List.flatMap_nil,
      e0, e1, e2, e3, e4, List.filterMap_cons, List.filterMap_nil,
      hc0, hc1, hc2, hc3, hc4, List.append_nil]
    rfl
  simp only [find_best_meeting_slots, hslots]
  rw [List.length_map, List.length_take,
    (sortLe_perm (fun a b : ℤ × ℤ × ℤ => decide (b.1 ≤ a.1)) [c0, c1, c2, c3, c4]).length_eq]
  rfl

/-- Witness for the amended C5 at duration −10: the call still returns
five slots. -/
theorem C5_witness :
    ((-10 : ℤ) ≤ 0) ∧ (find_best_meeting_slots [[], []] (-10) 10 0).length = 5 :=
  ⟨by decide, C5_no_duration_rejection (-10) (by decide)⟩

/-- **C8 (counterexample)**: in Scenario A (two empty calendars, duration
30, "now" = Monday 08:00 of day 0) the slot string claimed by the spec,
"(that Monday): 12:55-13:25", is *not* among the returned slots: centring
a 30-minute meeting in [09:00, 17:00) gives 12:45, not 12:55. -/
theorem C8_counterexample :
    (⟨0, 12, 55, 13, 25⟩ : SlotStr) ∉ find_best_meeting_slots [[], []] 30 10 28800 := by
  decide

/-- **C8 (amended)**: two empty calendars, duration 30 minutes, "now" =
Monday 08:00 of day 0: `find_best_meeting_slots` returns one slot per
weekday of that week, each centred in [09:00, 17:00), the Monday slot
first and formatted "(that Monday): 12:45-13:15" (the centred start 12:45
is already on a 5-minute boundary, so rounding leaves it unchanged). -/
theorem C8_scenario_a :
    find_best_meeting_slots [[], []] 30 10 28800 =
      [⟨0, 12, 45, 13, 15⟩, ⟨1, 12, 45, 13, 15⟩, ⟨2, 12, 45, 13, 15⟩,
       ⟨3, 12, 45, 13, 15⟩, ⟨4, 12, 45, 13, 15⟩] := by decide
